import Mathlib

/-!
Verification of `even-more-itertools` (`even_more_itertools/itertools.py`).

Shallow embedding conventions:
* A Python iterator / lazy stream is modelled as the `List` of the items it
  will still produce, consumed left to right.
* `more_itertools.peekable` adds one-item lookahead; over a list, `peek`
  is `head?` and pulling is taking the head, so a `Scanner`'s state is just
  the list of remaining items.
* The library targets Python 2 / pre-PEP-479 Python 3 (it has `PY2`
  branches): a `StopIteration` escaping a generator body terminates the
  generator normally.  The repository's own tests
  (`tests/test_scanner.py::test_scanner_empty`) pin this semantics:
  `scan_while` on an exhausted stream yields `[]`.
* `heapq` heaps are modelled by their documented multiset contract: the
  buffer is kept as a `≤`-sorted list; `heappushpop` inserts and removes the
  minimum, `heappop` removes the minimum, `heapify` sorts.  The sequence of
  *values* emitted by the Python code is exactly the sequence produced by
  this model, independent of the heap's internal array layout.
* Fallible code (`ValueError`) returns `Except`.
-/

namespace EvenMoreItertools

/-- A Python value as used in the documented examples: the section markers
are strings and the payload items are integers. -/
inductive PyVal where
  | str (s : String)
  | int (n : Int)
deriving DecidableEq, Repr

/-- The `is_section` predicate of the doctests: `lambda x: isinstance(x, str)`. -/
def isStr : PyVal → Bool
  | .str _ => true
  | .int _ => false

/-! ### Scanner (`class Scanner`)

State = list of items the underlying `peekable` stream will still yield. -/

/-- `Scanner.__next__`: pull the next raw item, or signal exhaustion
(`StopIteration` modelled as `none`). -/
def scannerNext (st : List α) : Option (α × List α) :=
  match st with
  | [] => none
  | x :: rest => some (x, rest)

/-- `Scanner.__iter__` / draining the scanner raw: `iter(self.stream)` yields
exactly the remaining items, in order. -/
def scannerDrain (st : List α) : List α := st

/-- `Scanner.scan_while(pred)`: while `pred(self.stream.peek())` holds, pull
and yield the item; stop without consuming on the first failure.  When the
stream is exhausted, `peek` raises `StopIteration`, which ends the generator
(pre-PEP-479 semantics, as pinned by the repository's tests).  Returns the
yielded items together with the scanner state left behind. -/
def scanWhile (pred : α → Bool) : List α → List α × List α
  | [] => ([], [])
  | x :: rest =>
    if pred x then
      let r := scanWhile pred rest
      (x :: r.1, r.2)
    else
      ([], x :: rest)

/-! ### sectionize (`def sectionize(pred, iterable)`)

State = the one-slot `deque(maxlen=1)` pushback buffer plus the remaining
input iterator. -/

/-- The mutable state shared between the outer `sectionize` generator and the
`iter_until_section` sub-generators: `buf = deque(maxlen=1)` and the
remaining input `it`. -/
structure SecState (α : Type) where
  buf : Option α
  rest : List α
deriving DecidableEq, Repr

/-- The `ValueError('expected a section, but found: {}')` raised by
`sectionize`, carrying the offending item. -/
inductive SecError (α : Type) where
  | notASection (x : α)
deriving DecidableEq, Repr

/-- One turn of the outer `while True` loop of `sectionize`: pop the pushback
buffer if non-empty, else pull from the input (`StopIteration`, i.e. input
exhaustion, ends the generator: `ok none`); yield the `(marker, sub-stream)`
pair when the item is a section marker, else raise `ValueError`.  The yielded
sub-stream shares the returned state. -/
def nextSection (pred : α → Bool) : SecState α → Except (SecError α) (Option (α × SecState α))
  | ⟨some m, r⟩ =>
    if pred m then .ok (some (m, ⟨none, r⟩)) else .error (.notASection m)
  | ⟨none, []⟩ => .ok none
  | ⟨none, x :: r⟩ =>
    if pred x then .ok (some (x, ⟨none, r⟩)) else .error (.notASection x)

/-- The loop of `iter_until_section()` over the remaining input `it`: yield
items until one satisfies `pred` (that one is pushed into `buf`, the
one-slot deque overwriting any previous content, and the sub-stream ends) or
the input is exhausted (the sub-stream simply ends). -/
def drainSubGo (pred : α → Bool) (b : Option α) : List α → List α × SecState α
  | [] => ([], ⟨b, []⟩)
  | x :: r =>
    if pred x then
      ([], ⟨some x, r⟩)
    else
      let res := drainSubGo pred b r
      (x :: res.1, res.2)

/-- Fully draining one `iter_until_section()` sub-generator from a given
shared state. -/
def drainSub (pred : α → Bool) (st : SecState α) : List α × SecState α :=
  drainSubGo pred st.buf st.rest

/-- The state of `sectionize(pred, iterable)` before anything is pulled:
empty pushback buffer, whole input pending. -/
def sectionizeInit (l : List α) : SecState α := ⟨none, l⟩

/-! ### grouper (`def grouper(tuples, bare=False)`) -/

/-- The loop of `grouper`: the state is `none` while `items is None`
(before the first tuple) and `some (last_id, items)` afterwards; on a key
change the accumulated group is flushed, and the final group is flushed after
input exhaustion.  The identity sentinel `object()` compares unequal to every
real key, which the `Option` models. -/
def grouperCore [DecidableEq κ] : Option (κ × List ρ) → List (κ × ρ) → List (κ × List ρ)
  | st, [] =>
    match st with
    | none => []
    | some (k, items) => [(k, items)]
  | st, (v, r) :: tl =>
    match st with
    | none => grouperCore (some (v, [r])) tl
    | some (k, items) =>
      if v = k then
        grouperCore (some (k, items ++ [r])) tl
      else
        (k, items) :: grouperCore (some (v, [r])) tl

/-- `grouper(tuples)` (default `bare=False`): each input tuple is decomposed
as `(tup[0], tup[1:])`, here represented as a pair of the leading key and the
list of remaining components. -/
def grouper [DecidableEq κ] (tuples : List (κ × List ρ)) : List (κ × List (List ρ)) :=
  grouperCore none tuples

/-- `grouper(tuples, bare=True)`: the input consists of 2-tuples already of
the form `(value, rest)`. -/
def grouperBare [DecidableEq κ] (tuples : List (κ × ρ)) : List (κ × List ρ) :=
  grouperCore none tuples

/-! ### isort (`def isort(iterable, bufsize=1024, key=None)`), `key=None` case

The heap buffer is modelled as a `≤`-sorted list of the buffered values
(the multiset contract of `heapq`): `heapify` sorts the seed, `heappushpop`
inserts the incoming item and removes the minimum (the head), `heappop`
during the final drain removes the successive minima, i.e. yields the sorted
buffer itself. -/

/-- `heapq.heappush`-style insertion into the sorted buffer. -/
def heapInsert (x : Int) (buf : List Int) : List Int :=
  List.orderedInsert (· ≤ ·) x buf

/-- `heapq.heapify(buf)` on the seed `take(bufsize, it)`. -/
def heapify (l : List Int) : List Int :=
  List.insertionSort (· ≤ ·) l

/-- The emission loop of `isort` (no key): for each further input item,
`yield heappushpop(buf, item)`; after exhaustion, drain with
`yield heappop(buf)` until the buffer is empty. -/
def isortGo : List Int → List Int → List Int
  | buf, [] => buf
  | buf, x :: rest =>
    match heapInsert x buf with
    | [] => []
    | m :: ms => m :: isortGo ms rest

/-- `isort(iterable, bufsize)` with the default natural ordering: seed the
heap with the first `bufsize` items, then run the emission loop. -/
def isort (bufsize : Nat) (l : List Int) : List Int :=
  isortGo (heapify (l.take bufsize)) (l.drop bufsize)

/-- The `ValueError` a Python call can surface. -/
inductive PyError where
  | valueError (msg : String)
deriving DecidableEq, Repr

/-- `isort` including the failure behaviour of its collaborators: the
function body performs no `bufsize` validation of its own; the only error a
non-positive `bufsize` can produce is the `ValueError` that
`more_itertools.take` (`itertools.islice`) raises for a negative count —
and only once the generator is first pulled.  `bufsize = 0` produces no
error at all. -/
def isortChecked (bufsize : Int) (l : List Int) : Except PyError (List Int) :=
  if bufsize < 0 then
    .error (.valueError "Stop argument for islice() must be None or an integer: 0 <= x <= sys.maxsize.")
  else
    .ok (isort bufsize.toNat l)

/-- Count of correctly-ordered adjacent pairs `out[i] <= out[i+1]`. -/
def sortedPairs : List Int → Nat
  | x :: y :: rest => (if x ≤ y then 1 else 0) + sortedPairs (y :: rest)
  | _ => 0

/-- Count of inverted adjacent pairs `out[i] > out[i+1]`. -/
def descents : List Int → Nat
  | x :: y :: rest => (if y < x then 1 else 0) + descents (y :: rest)
  | _ => 0

/-! ### isort with a key function (decorate / undecorate)

`i1, i2 = tee(it); it = zip(map(key, i1), count(0, -1), i2)` decorates each
item as the triple `(key(item), counter, item)` with the counter running
`0, -1, -2, ...`.  The heap compares these triples lexicographically; the
counters are pairwise distinct, so the comparison never reaches the item
itself (that is the decoration's documented purpose) and ordering the triples
by the lexicographic order on `(key, counter)` is exact. -/

/-- The lexicographic order on decorated triples used by the heap:
`(k1, c1, _) <= (k2, c2, _)` iff `k1 < k2`, or `k1 = k2` and `c1 <= c2`. -/
def dLe (a b : Int × Int × α) : Prop :=
  a.1 < b.1 ∨ (a.1 = b.1 ∧ a.2.1 ≤ b.2.1)

instance (a b : Int × Int × α) : Decidable (dLe a b) :=
  inferInstanceAs (Decidable (a.1 < b.1 ∨ (a.1 = b.1 ∧ a.2.1 ≤ b.2.1)))

/-- Heap insertion of a decorated triple into the sorted buffer. -/
def dInsort (x : Int × Int × α) : List (Int × Int × α) → List (Int × Int × α)
  | [] => [x]
  | y :: ys => if dLe x y then x :: y :: ys else y :: dInsort x ys

/-- `heapify` on the decorated seed. -/
def dSort (l : List (Int × Int × α)) : List (Int × Int × α) :=
  l.foldr dInsort []

/-- The decoration `zip(map(key, i1), count(c, -1), i2)` starting from
counter value `c` (the source starts at `c = 0`). -/
def decorateFrom (key : α → Int) (c : Int) : List α → List (Int × Int × α)
  | [] => []
  | x :: rest => (key x, c, x) :: decorateFrom key (c - 1) rest

/-- The full decoration, counters `0, -1, -2, ...`. -/
def decorate (key : α → Int) (l : List α) : List (Int × Int × α) :=
  decorateFrom key 0 l

/-- The emission loop of `isort` with a key: `heappushpop(buf, item)[2]`
while input remains, then drain with `heappop(buf)[2]`. -/
def isortKeyGo : List (Int × Int × α) → List (Int × Int × α) → List (Int × Int × α)
  | buf, [] => buf
  | buf, x :: rest =>
    match dInsort x buf with
    | [] => []
    | m :: ms => m :: isortKeyGo ms rest

/-- `isort(iterable, bufsize, key)`: decorate, seed the heap with the first
`bufsize` decorated triples, run the emission loop, undecorate (`[2]`). -/
def isortKey (bufsize : Nat) (key : α → Int) (l : List α) : List α :=
  let d := decorate key l
  (isortKeyGo (dSort (d.take bufsize)) (d.drop bufsize)).map (fun t => t.2.2)


/-- With an empty buffer (`bufsize = 0`), `heappushpop` on the empty heap
returns the incoming item unchanged, so the emission loop is the
identity. -/
theorem isortGo_nil_buf : ∀ l : List Int, isortGo [] l = l := by
  intro l
  induction l with
  | nil => rfl
  | cons x rest ih => simpa [isortGo, heapInsert, List.orderedInsert] using ih

/-- `isort 0` is the identity on the stream. -/
theorem isort_zero_eq (l : List Int) : isort 0 l = l := by
  simpa [isort, heapify, List.insertionSort] using isortGo_nil_buf l

/-- `isortChecked 0` succeeds with the unchanged stream. -/
theorem isortChecked_zero_ok (l : List Int) : isortChecked 0 l = .ok l := by
  simp [isortChecked, isort_zero_eq]

/-! ## Claim theorems: isort configuration -/

/-- C10: `isort` with `bufsize = 0` raises no error and yields exactly the
input items in their original arrival order: `take(0, it)` seeds an empty
heap and `heappushpop` on an empty heap returns each incoming item
immediately. -/
theorem isort_bufsize_zero_identity :
    ∀ l : List Int, isortChecked 0 l = .ok l ∧ isort 0 l = l := by
  intro l
  exact ⟨isortChecked_zero_ok l, isort_zero_eq l⟩

/-- C2 counterexample: at `bufsize = 0` no error of any kind is raised —
`isort` simply passes the stream through (here `[5, 3]`, unsorted, comes out
unchanged), refuting "for every bufsize ≤ 0 a ConfigError is raised at call
time". -/
theorem isort_bufsize_zero_no_error :
    isortChecked 0 [5, 3] = .ok [5, 3] := by
  rfl

/-- C2 amended: `isort` performs no `bufsize` validation. `bufsize = 0`
raises nothing and passes the input through unchanged, and a negative
`bufsize` surfaces only as the `ValueError` that `islice` raises (at the
first pull of the lazy result, since the generator body runs no code at call
time) — there is no ConfigError at call time. -/
theorem isort_no_bufsize_validation :
    (∀ l : List Int, isortChecked 0 l = .ok l) ∧
    (∀ (b : Int) (l : List Int), b < 0 →
      isortChecked b l =
        .error (.valueError "Stop argument for islice() must be None or an integer: 0 <= x <= sys.maxsize.")) := by
  constructor
  · intro l
    exact isortChecked_zero_ok l
  · intro b l hb
    simp [isortChecked, hb]

/-- C2 amended, witness: `bufsize = -1` on `[7]` yields the `islice`
`ValueError`, and `bufsize = 0` on `[7]` succeeds. -/
theorem isort_no_bufsize_validation_witness :
    (-1 : Int) < 0 ∧
    isortChecked (-1) [7] =
      .error (.valueError "Stop argument for islice() must be None or an integer: 0 <= x <= sys.maxsize.") ∧
    isortChecked 0 [7] = .ok [7] :=
  ⟨by decide, isort_no_bufsize_validation.2 (-1) [7] (by decide),
    isort_no_bufsize_validation.1 [7]⟩

/-! ### Monotonicity of sortedness in `bufsize`

The coupling argument: during the streaming phase, the buffer of
`isort (b+1)` always equals the buffer of `isort b` plus one extra element,
so every emission of the larger instance is at most the corresponding
emission of the smaller one, and a descent of the larger instance at some
position forces a descent of the smaller one there too. -/

/-- Inserting into the buffer never produces an empty buffer. -/
theorem heapInsert_ne_nil (x : Int) (buf : List Int) : heapInsert x buf ≠ [] := by
  cases buf with
  | nil => simp [heapInsert, List.orderedInsert]
  | cons b bs =>
    simp only [heapInsert, List.orderedInsert]
    split <;> simp

/-- Insertion grows the buffer by one. -/
theorem heapInsert_length (x : Int) (buf : List Int) :
    (heapInsert x buf).length = buf.length + 1 := by
  simp [heapInsert, List.orderedInsert_length]

/-- Insertion preserves sortedness of the buffer. -/
theorem heapInsert_sorted (x : Int) {buf : List Int} (h : List.Sorted (· ≤ ·) buf) :
    List.Sorted (· ≤ ·) (heapInsert x buf) :=
  List.Sorted.orderedInsert x buf h

/-- The seeded buffer is sorted. -/
theorem heapify_sorted (l : List Int) : List.Sorted (· ≤ ·) (heapify l) :=
  List.sorted_insertionSort (· ≤ ·) l

/-- Unfolding of the emission loop at a streaming step. -/
theorem isortGo_cons (buf xs : List Int) (x m : Int) (ms : List Int)
    (h : heapInsert x buf = m :: ms) :
    isortGo buf (x :: xs) = m :: isortGo ms xs := by
  simp only [isortGo, h]

/-- `isort` emits exactly as many items as it consumes. -/
theorem isortGo_length : ∀ (xs buf : List Int),
    (isortGo buf xs).length = buf.length + xs.length := by
  intro xs
  induction xs with
  | nil => intro buf; simp [isortGo]
  | cons x rest ih =>
    intro buf
    obtain ⟨m, ms, hm⟩ := List.exists_cons_of_ne_nil (heapInsert_ne_nil x buf)
    have h1 : (heapInsert x buf).length = buf.length + 1 := heapInsert_length x buf
    rw [hm] at h1
    simp only [List.length_cons] at h1
    rw [isortGo_cons buf rest x m ms hm]
    simp only [List.length_cons, ih ms]
    omega

/-- A sorted list has no inverted adjacent pair. -/
theorem descents_of_sorted : ∀ l : List Int, List.Sorted (· ≤ ·) l → descents l = 0 := by
  intro l
  induction l with
  | nil => intro _; rfl
  | cons x rest ih =>
    intro h
    cases rest with
    | nil => rfl
    | cons y rs =>
      have hp := List.sorted_cons.mp h
      have hxy : x ≤ y := hp.1 y (List.mem_cons_self y rs)
      have htail : descents (y :: rs) = 0 := ih hp.2
      show (if y < x then 1 else 0) + descents (y :: rs) = 0
      rw [if_neg (not_lt.mpr hxy), htail]

/-- Peeling the head off the descent count. -/
theorem descents_cons (a : Int) (l : List Int) (h : l ≠ []) :
    descents (a :: l) = (if l.headI < a then 1 else 0) + descents l := by
  cases l with
  | nil => exact absurd rfl h
  | cons y rs => rfl

/-- Prepending an item cannot remove a descent of the tail. -/
theorem descents_le_cons (a : Int) (l : List Int) : descents l ≤ descents (a :: l) := by
  cases l with
  | nil => exact Nat.zero_le _
  | cons y rs =>
    show descents (y :: rs) ≤ (if y < a then 1 else 0) + descents (y :: rs)
    split <;> omega

/-- Sorted pairs and descents partition the adjacent pairs. -/
theorem sortedPairs_add_descents : ∀ l : List Int,
    sortedPairs l + descents l = l.length - 1 := by
  intro l
  induction l with
  | nil => rfl
  | cons x rest ih =>
    cases rest with
    | nil => rfl
    | cons y rs =>
      have h1 : sortedPairs (x :: y :: rs)
          = (if x ≤ y then 1 else 0) + sortedPairs (y :: rs) := rfl
      have h2 : descents (x :: y :: rs)
          = (if y < x then 1 else 0) + descents (y :: rs) := rfl
      rw [h1, h2]
      simp only [List.length_cons] at ih ⊢
      rcases le_or_lt x y with h | h
      · rw [if_pos h, if_neg (not_lt.mpr h)]
        omega
      · rw [if_neg (not_le.mpr h), if_pos h]
        omega

/-- The coupling identity: inserting the incoming item `x` into the buffer
that carries one extra element `e` emits `min p e` and leaves the buffer of
the smaller instance plus the extra element `max p e`, where `p` is what the
smaller instance emits. -/
theorem heapInsert_comm (B : List Int) (hB : List.Sorted (· ≤ ·) B)
    (x e p : Int) (B' : List Int) (hp : heapInsert x B = p :: B') :
    heapInsert x (heapInsert e B) = min p e :: heapInsert (max p e) B' := by
  have hsx : List.Sorted (· ≤ ·) (p :: B') := hp ▸ heapInsert_sorted x hB
  have hpB' : ∀ b ∈ B', p ≤ b := (List.sorted_cons.mp hsx).1
  have hB' : List.Sorted (· ≤ ·) B' := (List.sorted_cons.mp hsx).2
  have hs1 : List.Sorted (· ≤ ·) (heapInsert x (heapInsert e B)) :=
    heapInsert_sorted x (heapInsert_sorted e hB)
  have hs2 : List.Sorted (· ≤ ·) (min p e :: heapInsert (max p e) B') := by
    rw [List.sorted_cons]
    constructor
    · intro b hb
      rcases (List.mem_orderedInsert _).mp hb with hmax | hmem
      · rw [hmax]
        exact min_le_of_left_le (le_max_left p e)
      · exact le_trans (min_le_left p e) (hpB' b hmem)
    · exact heapInsert_sorted _ hB'
  have P1 : List.Perm (heapInsert x (heapInsert e B)) (x :: heapInsert e B) :=
    List.perm_orderedInsert _ x _
  have P2 : List.Perm (heapInsert e B) (e :: B) := List.perm_orderedInsert _ e B
  have P3 : List.Perm (p :: B') (x :: B) := hp ▸ List.perm_orderedInsert _ x B
  have P4 : List.Perm (heapInsert (max p e) B') (max p e :: B') :=
    List.perm_orderedInsert _ _ B'
  have Pme : List.Perm (min p e :: max p e :: B') (p :: e :: B') := by
    rcases le_total p e with h | h
    · rw [min_eq_left h, max_eq_right h]
    · rw [min_eq_right h, max_eq_left h]
      exact List.Perm.swap p e B'
  have Q1 : List.Perm (heapInsert x (heapInsert e B)) (x :: e :: B) := P1.trans (P2.cons x)
  have Q2 : List.Perm (x :: e :: B) (e :: p :: B') :=
    (List.Perm.swap e x B).trans ((P3.symm).cons e)
  have Q3 : List.Perm (e :: p :: B') (min p e :: max p e :: B') :=
    (List.Perm.swap p e B').trans Pme.symm
  have Q4 : List.Perm (min p e :: max p e :: B') (min p e :: heapInsert (max p e) B') :=
    (P4.symm).cons _
  exact List.eq_of_perm_of_sorted (Q1.trans (Q2.trans (Q3.trans Q4))) hs1 hs2

/-- The coupling lemma: running the emission loop from a buffer with one
extra element never creates more descents. -/
theorem isortGo_extra_le : ∀ (xs B : List Int) (e : Int), List.Sorted (· ≤ ·) B →
    descents (isortGo (heapInsert e B) xs) ≤ descents (isortGo B xs) := by
  intro xs
  induction xs with
  | nil =>
    intro B e hB
    simp only [isortGo]
    rw [descents_of_sorted _ (heapInsert_sorted e hB)]
    exact Nat.zero_le _
  | cons x rest ih =>
    intro B e hB
    obtain ⟨p, B', hp⟩ := List.exists_cons_of_ne_nil (heapInsert_ne_nil x B)
    have hsx : List.Sorted (· ≤ ·) (p :: B') := hp ▸ heapInsert_sorted x hB
    have hB' : List.Sorted (· ≤ ·) B' := (List.sorted_cons.mp hsx).2
    have hcomm := heapInsert_comm B hB x e p B' hp
    rw [isortGo_cons B rest x p B' hp, isortGo_cons _ rest x _ _ hcomm]
    cases rest with
    | nil =>
      simp only [isortGo]
      have hzero : descents (min p e :: heapInsert (max p e) B') = 0 := by
        rw [← hcomm]
        exact descents_of_sorted _ (heapInsert_sorted x (heapInsert_sorted e hB))
      rw [hzero]
      exact Nat.zero_le _
    | cons x2 rest2 =>
      obtain ⟨p2, B2, hp2⟩ := List.exists_cons_of_ne_nil (heapInsert_ne_nil x2 B')
      have hcomm2 := heapInsert_comm B' hB' x2 (max p e) p2 B2 hp2
      have hgoB2 : isortGo B' (x2 :: rest2) = p2 :: isortGo B2 rest2 :=
        isortGo_cons B' rest2 x2 p2 B2 hp2
      have hgoC2 : isortGo (heapInsert (max p e) B') (x2 :: rest2)
          = min p2 (max p e) :: isortGo (heapInsert (max p2 (max p e)) B2) rest2 :=
        isortGo_cons _ rest2 x2 _ _ hcomm2
      have hBne : isortGo B' (x2 :: rest2) ≠ [] := by
        rw [hgoB2]; exact List.cons_ne_nil _ _
      have hCne : isortGo (heapInsert (max p e) B') (x2 :: rest2) ≠ [] := by
        rw [hgoC2]; exact List.cons_ne_nil _ _
      rw [descents_cons _ _ hBne, descents_cons _ _ hCne]
      have ihd : descents (isortGo (heapInsert (max p e) B') (x2 :: rest2))
          ≤ descents (isortGo B' (x2 :: rest2)) := ih B' (max p e) hB'
      have hheadB : (isortGo B' (x2 :: rest2)).headI = p2 := by rw [hgoB2]; rfl
      have hheadC : (isortGo (heapInsert (max p e) B') (x2 :: rest2)).headI
          = min p2 (max p e) := by rw [hgoC2]; rfl
      rw [hheadB, hheadC]
      have himp : min p2 (max p e) < min p e → p2 < p := by
        intro hlt
        by_contra hge
        push_neg at hge
        have h1 : min p e ≤ p2 := le_trans (min_le_left p e) hge
        have h2 : min p e ≤ max p e := le_trans (min_le_left p e) (le_max_left p e)
        exact absurd hlt (not_lt.mpr (le_min h1 h2))
      by_cases h1 : min p2 (max p e) < min p e
      · rw [if_pos h1, if_pos (himp h1)]
        omega
      · rw [if_neg h1]
        split <;> omega

/-- Helper: the buffer seeded with one more input item is the smaller seed
with that item inserted. -/
theorem heapify_take_succ (l : List Int) (b : Nat) (h : b < l.length) :
    heapify (l.take (b + 1)) = heapInsert l[b] (heapify (l.take b)) := by
  have P1 : List.Perm (heapify (l.take (b + 1))) (l.take (b + 1)) :=
    List.perm_insertionSort _ _
  have P2 : List.Perm (heapInsert l[b] (heapify (l.take b)))
      (l[b] :: heapify (l.take b)) := List.perm_orderedInsert _ _ _
  have P3 : List.Perm (heapify (l.take b)) (l.take b) := List.perm_insertionSort _ _
  have htake : (l.take b).concat l[b] = l.take (b + 1) := List.take_concat_get l b h
  have Qt : List.Perm (l.take (b + 1)) (l[b] :: l.take b) := by
    rw [← htake, List.concat_eq_append]
    exact List.perm_append_singleton _ _
  have Q1 : List.Perm (heapify (l.take (b + 1))) (l[b] :: l.take b) := P1.trans Qt
  have Q2 : List.Perm (l[b] :: l.take b) (heapInsert l[b] (heapify (l.take b))) :=
    ((P3.symm).cons _).trans P2.symm
  exact List.eq_of_perm_of_sorted (Q1.trans Q2) (heapify_sorted _)
    (heapInsert_sorted _ (heapify_sorted _))

/-- A sorted buffer headed by its minimum re-absorbs that minimum at the
head. -/
theorem heapInsert_head_of_sorted (p : Int) (B' : List Int)
    (h : List.Sorted (· ≤ ·) (p :: B')) : heapInsert p B' = p :: B' := by
  cases B' with
  | nil => rfl
  | cons q qs =>
    have hpq : p ≤ q := (List.sorted_cons.mp h).1 q (List.mem_cons_self q qs)
    simp [heapInsert, List.orderedInsert, if_pos hpq]

/-- Growing the buffer by one never increases the number of descents. -/
theorem descents_isort_succ (b : Nat) (l : List Int) :
    descents (isort (b + 1) l) ≤ descents (isort b l) := by
  by_cases hlen : l.length ≤ b
  · have h1 : l.take b = l := List.take_of_length_le hlen
    have h2 : l.take (b + 1) = l := List.take_of_length_le (le_trans hlen (Nat.le_succ b))
    have h3 : l.drop b = [] := List.drop_eq_nil_of_le hlen
    have h4 : l.drop (b + 1) = [] := List.drop_eq_nil_of_le (le_trans hlen (Nat.le_succ b))
    rw [isort, isort, h1, h2, h3, h4]
  · push_neg at hlen
    have hdrop : l.drop b = l[b] :: l.drop (b + 1) := List.drop_eq_getElem_cons hlen
    obtain ⟨p, B', hp⟩ :=
      List.exists_cons_of_ne_nil (heapInsert_ne_nil l[b] (heapify (l.take b)))
    have hsx : List.Sorted (· ≤ ·) (p :: B') := hp ▸ heapInsert_sorted _ (heapify_sorted _)
    have hB' : List.Sorted (· ≤ ·) B' := (List.sorted_cons.mp hsx).2
    have hgoB : isort b l = p :: isortGo B' (l.drop (b + 1)) := by
      rw [isort, hdrop]
      exact isortGo_cons _ _ _ _ _ hp
    have hgoC : isort (b + 1) l = isortGo (heapInsert p B') (l.drop (b + 1)) := by
      rw [isort, heapify_take_succ l b hlen, hp, heapInsert_head_of_sorted p B' hsx]
    rw [hgoB, hgoC]
    exact le_trans (isortGo_extra_le _ B' p hB') (descents_le_cons _ _)

/-- Monotonicity of descents in the buffer size. -/
theorem descents_isort_le (l : List Int) (b1 b2 : Nat) (h : b1 ≤ b2) :
    descents (isort b2 l) ≤ descents (isort b1 l) := by
  induction h with
  | refl => exact le_refl _
  | step h2 ih => exact le_trans (descents_isort_succ _ l) ih

/-- `isort` preserves the stream length. -/
theorem isort_length (b : Nat) (l : List Int) : (isort b l).length = l.length := by
  rw [isort, isortGo_length]
  simp only [heapify, List.length_insertionSort, List.length_take, List.length_drop]
  omega

/-! ## Claim theorem: monotonic sortedness -/

/-- C5: for every finite stream and positive capacities `b1 < b2`, the
output of `isort` with `bufsize = b2` has at least as many correctly-ordered
adjacent pairs as the output with `bufsize = b1`. -/
theorem isort_sortedPairs_monotone (l : List Int) (b1 b2 : Nat)
    (_hpos : 0 < b1) (hlt : b1 < b2) :
    sortedPairs (isort b1 l) ≤ sortedPairs (isort b2 l) := by
  have hd : descents (isort b2 l) ≤ descents (isort b1 l) :=
    descents_isort_le l b1 b2 (le_of_lt hlt)
  have h1 := sortedPairs_add_descents (isort b1 l)
  have h2 := sortedPairs_add_descents (isort b2 l)
  rw [isort_length] at h1 h2
  omega

/-- C5 witness: on the stream `[3, 1, 2]` with capacities 1 and 2. -/
theorem isort_sortedPairs_monotone_witness :
    0 < 1 ∧ 1 < 2 ∧
    sortedPairs (isort 1 [3, 1, 2]) ≤ sortedPairs (isort 2 [3, 1, 2]) :=
  ⟨by decide, by decide, isort_sortedPairs_monotone [3, 1, 2] 1 2 (by decide) (by decide)⟩

/-- Inserting an element that is strictly above everything in the buffer
places it at the end. -/
theorem dInsort_of_all_not_le (x : Int × Int × α) :
    ∀ m : List (Int × Int × α), (∀ y ∈ m, ¬ dLe x y) → dInsort x m = m ++ [x] := by
  intro m
  induction m with
  | nil => intro _; rfl
  | cons y ys ih =>
    intro h
    have hy : ¬ dLe x y := h y (List.mem_cons_self y ys)
    simp only [dInsort, if_neg hy, List.cons_append]
    rw [ih (fun z hz => h z (List.mem_cons_of_mem y hz))]

/-- Sorting a sequence whose elements are pairwise strictly decreasing under
the heap order reverses it. -/
theorem dSort_of_pairwise_gt :
    ∀ d : List (Int × Int × α),
      List.Pairwise (fun a b => ¬ dLe a b) d → dSort d = d.reverse := by
  intro d
  induction d with
  | nil => intro _; rfl
  | cons x rest ih =>
    intro hp
    have hrest := ih hp.of_cons
    have hx : ∀ y ∈ rest.reverse, ¬ dLe x y := by
      intro y hy
      exact (List.pairwise_cons.mp hp).1 y (List.mem_reverse.mp hy)
    calc dSort (x :: rest) = dInsort x (dSort rest) := rfl
      _ = dInsort x rest.reverse := by rw [hrest]
      _ = rest.reverse ++ [x] := dInsort_of_all_not_le x rest.reverse hx
      _ = (x :: rest).reverse := (List.reverse_cons x rest).symm

/-- Every entry of the decoration carries the key of its item, a counter at
most the starting counter, and an item of the stream. -/
theorem mem_decorateFrom (key : α → Int) :
    ∀ (l : List α) (c : Int) (y : Int × Int × α), y ∈ decorateFrom key c l →
      y.1 = key y.2.2 ∧ y.2.1 ≤ c ∧ y.2.2 ∈ l := by
  intro l
  induction l with
  | nil => intro c y hy; cases hy
  | cons x rest ih =>
    intro c y hy
    rcases List.mem_cons.mp hy with h | h
    · subst h
      exact ⟨rfl, le_refl c, List.mem_cons_self x rest⟩
    · obtain ⟨h1, h2, h3⟩ := ih (c - 1) y h
      exact ⟨h1, le_trans h2 (by omega), List.mem_cons_of_mem x h3⟩

/-- With a key constant on the stream, the decorated triples are pairwise
strictly decreasing under the heap order: the strictly decreasing counter
makes every later arrival compare strictly smaller. -/
theorem decorateFrom_pairwise_gt (key : α → Int) (k : Int) :
    ∀ (l : List α) (c : Int), (∀ x ∈ l, key x = k) →
      List.Pairwise (fun a b => ¬ dLe a b) (decorateFrom key c l) := by
  intro l
  induction l with
  | nil => intro c _; exact List.Pairwise.nil
  | cons x rest ih =>
    intro c hk
    refine List.pairwise_cons.mpr ⟨?_, ih (c - 1) (fun z hz => hk z (List.mem_cons_of_mem x hz))⟩
    intro y hy
    obtain ⟨h1, h2, h3⟩ := mem_decorateFrom key rest (c - 1) y hy
    have hxk : key x = k := hk x (List.mem_cons_self x rest)
    have hyk : y.1 = k := by rw [h1, hk y.2.2 (List.mem_cons_of_mem x h3)]
    intro hle
    rcases hle with h | ⟨_, h⟩
    · dsimp only at h
      rw [hxk, hyk] at h
      exact lt_irrefl k h
    · dsimp only at h
      omega

/-- The decoration has the length of the stream. -/
theorem decorateFrom_length (key : α → Int) :
    ∀ (l : List α) (c : Int), (decorateFrom key c l).length = l.length := by
  intro l
  induction l with
  | nil => intro c; rfl
  | cons x rest ih => intro c; simp [decorateFrom, ih]

/-- Undecorating the decoration recovers the stream. -/
theorem decorateFrom_map_val (key : α → Int) :
    ∀ (l : List α) (c : Int),
      (decorateFrom key c l).map (fun t => t.2.2) = l := by
  intro l
  induction l with
  | nil => intro c; rfl
  | cons x rest ih => intro c; simp [decorateFrom, ih]

/-! ## Claim theorems: isort tie-breaking -/

/-- C1 counterexample: with the constant key and the stream `[10, 20]`
(both keys equal, buffer never overflowing), `isort` emits the *later*
arrival `20` first — the output is `[20, 10]`, not the claimed
first-seen-first-emitted `[10, 20]`. -/
theorem isortKey_tie_not_fifo :
    isortKey 1024 (fun _ => (0 : Int)) [(10 : Int), 20] = [20, 10] ∧
    isortKey 1024 (fun _ => (0 : Int)) [(10 : Int), 20] ≠ [10, 20] := by
  constructor
  · rfl
  · decide

/-- C1 amended: ties in key are broken by *reverse* arrival order
(most-recently-seen-first): the decoration counter `count(0, -1)` strictly
decreases, so of two equal-key items the later arrival compares strictly
smaller and leaves the heap first.  In particular, on a stream whose keys
are all equal and which fits in the buffer, `isort` returns the exact
reverse of the input. -/
theorem isortKey_const_key_reverse (key : Int → Int) (k : Int) (l : List Int) (b : Nat)
    (hb : l.length ≤ b) (hk : ∀ x ∈ l, key x = k) :
    isortKey b key l = l.reverse := by
  have hdlen : (decorate key l).length = l.length := decorateFrom_length key l 0
  have htake : (decorate key l).take b = decorate key l :=
    List.take_of_length_le (by rw [hdlen]; exact hb)
  have hdrop : (decorate key l).drop b = [] :=
    List.drop_eq_nil_of_le (by rw [hdlen]; exact hb)
  have hsort : dSort (decorate key l) = (decorate key l).reverse :=
    dSort_of_pairwise_gt (decorate key l) (decorateFrom_pairwise_gt key k l 0 hk)
  calc isortKey b key l
      = (isortKeyGo (dSort (decorate key l)) []).map (fun t => t.2.2) := by
        rw [isortKey, htake, hdrop]
    _ = ((decorate key l).reverse).map (fun t => t.2.2) := by rw [hsort, isortKeyGo]
    _ = ((decorate key l).map (fun t => t.2.2)).reverse := List.map_reverse _ _
    _ = l.reverse := by unfold decorate; rw [decorateFrom_map_val]

/-- C1 amended, witness: the counterexample stream under the constant key
fits in the default buffer of 1024 and comes out reversed. -/
theorem isortKey_const_key_reverse_witness :
    ([(10 : Int), 20] : List Int).length ≤ 1024 ∧
    (∀ x ∈ [(10 : Int), 20], (fun _ => (0 : Int)) x = 0) ∧
    isortKey 1024 (fun _ => (0 : Int)) [(10 : Int), 20] = ([(10 : Int), 20] : List Int).reverse :=
  ⟨by decide, by decide,
    isortKey_const_key_reverse (fun _ => (0 : Int)) 0 [(10 : Int), 20] 1024
      (by decide) (by decide)⟩

/-! ## Claim theorems: Scanner -/

/-- C4: iterating `scan_while(p)` on a Scanner whose underlying stream is
exhausted yields the empty sequence and terminates normally (the state stays
exhausted, so repeated scans keep yielding empty), and a raw pull likewise
reports exhaustion rather than an error. -/
theorem scanner_exhausted_scan_empty :
    ∀ p : Int → Bool,
      scanWhile p ([] : List Int) = ([], []) ∧
      scannerNext ([] : List Int) = none := by
  intro p
  exact ⟨rfl, rfl⟩

/-- C6: for every predicate `p` and finite stream `s`, the items yielded by
`scan_while(p)` on a fresh Scanner over `s`, followed by raw-iterating the
same Scanner to exhaustion, reconstruct `s` exactly; the split point is the
first element failing `p` (`takeWhile` / `dropWhile`). -/
theorem scanner_scanWhile_partition :
    ∀ (p : Int → Bool) (s : List Int),
      (scanWhile p s).1 ++ scannerDrain (scanWhile p s).2 = s ∧
      (scanWhile p s).1 = s.takeWhile p ∧
      scannerDrain (scanWhile p s).2 = s.dropWhile p := by
  intro p s
  induction s with
  | nil => exact ⟨rfl, rfl, rfl⟩
  | cons x rest ih =>
    cases hp : p x with
    | true =>
      simp only [scanWhile, hp, if_true, scannerDrain, List.takeWhile, List.dropWhile] at *
      exact ⟨by rw [List.cons_append, ih.1], by rw [ih.2.1], ih.2.2⟩
    | false =>
      simp only [scanWhile, hp, if_false, scannerDrain, List.takeWhile, List.dropWhile]
      exact ⟨rfl, rfl, rfl⟩

/-! ## Claim theorems: sectionize -/

/-- C7: on a non-empty input whose first item does not satisfy `is_section`,
`sectionize` raises `ValueError('expected a section, but found: X')` at the
first demand, before yielding any Section. -/
theorem sectionize_first_item_not_section_error
    (pred : PyVal → Bool) (x : PyVal) (r : List PyVal) (h : pred x = false) :
    nextSection pred (sectionizeInit (x :: r)) = .error (.notASection x) := by
  simp [nextSection, sectionizeInit, h]

/-- Witness for C7: the doctest input `[0, 'B']` raises before yielding. -/
theorem sectionize_first_item_not_section_error_witness :
    isStr (PyVal.int 0) = false ∧
    nextSection isStr (sectionizeInit [PyVal.int 0, PyVal.str "B"]) =
      .error (.notASection (PyVal.int 0)) :=
  ⟨by decide, sectionize_first_item_not_section_error isStr (PyVal.int 0) [PyVal.str "B"] (by decide)⟩

/-- C3 counterexample: on `['A', 0, 'B', 3]`, after obtaining the first
Section `('A', ...)` and abandoning its sub-stream undrained, requesting the
next Section does NOT silently fast-forward to `'B'`: it raises
`ValueError('expected a section, but found: 0')`. -/
theorem sectionize_abandon_raises :
    nextSection isStr (sectionizeInit
        [PyVal.str "A", PyVal.int 0, PyVal.str "B", PyVal.int 3]) =
      .ok (some (PyVal.str "A", ⟨none, [PyVal.int 0, PyVal.str "B", PyVal.int 3]⟩)) ∧
    nextSection isStr ⟨none, [PyVal.int 0, PyVal.str "B", PyVal.int 3]⟩ =
      .error (.notASection (PyVal.int 0)) := by
  exact ⟨rfl, rfl⟩

/-- C3 amended: after a sub-stream is abandoned (pushback buffer empty,
undrained items pending), requesting the next Section pulls the next raw
item; if it is not a section marker `sectionize` raises
`ValueError('expected a section, but found: X')` — the documented "safety
measure" — and it continues silently only when that item happens to be a
marker itself.  No fast-forwarding over the remainder ever happens. -/
theorem sectionize_after_abandon
    (pred : PyVal → Bool) (x : PyVal) (r : List PyVal) :
    (pred x = false →
      nextSection pred ⟨none, x :: r⟩ = .error (.notASection x)) ∧
    (pred x = true →
      nextSection pred ⟨none, x :: r⟩ = .ok (some (x, ⟨none, r⟩))) := by
  constructor
  · intro h; simp [nextSection, h]
  · intro h; simp [nextSection, h]

/-- Witness for C3's amended theorem, at the concrete abandoned state of the
counterexample. -/
theorem sectionize_after_abandon_witness :
    isStr (PyVal.int 0) = false ∧
    nextSection isStr ⟨none, [PyVal.int 0, PyVal.str "B", PyVal.int 3]⟩ =
      .error (.notASection (PyVal.int 0)) :=
  ⟨by decide,
    (sectionize_after_abandon isStr (PyVal.int 0) [PyVal.str "B", PyVal.int 3]).1 (by decide)⟩

/-- C8: with every sub-stream drained before the next Section is requested,
`sectionize` on `['A', 0, 1, 2, 'B', 3, 4]` yields `('A', [0, 1, 2])` then
`('B', [3, 4])` and then ends; on `['A', 'B']` it yields `('A', [])` then
`('B', [])` and then ends; a sub-stream cut off by input exhaustion simply
ends, without error. -/
theorem sectionize_sequential_examples :
    (nextSection isStr (sectionizeInit
        [PyVal.str "A", PyVal.int 0, PyVal.int 1, PyVal.int 2,
         PyVal.str "B", PyVal.int 3, PyVal.int 4]) =
      .ok (some (PyVal.str "A",
        ⟨none, [PyVal.int 0, PyVal.int 1, PyVal.int 2,
                PyVal.str "B", PyVal.int 3, PyVal.int 4]⟩)) ∧
     drainSub isStr ⟨none, [PyVal.int 0, PyVal.int 1, PyVal.int 2,
                            PyVal.str "B", PyVal.int 3, PyVal.int 4]⟩ =
      ([PyVal.int 0, PyVal.int 1, PyVal.int 2],
       ⟨some (PyVal.str "B"), [PyVal.int 3, PyVal.int 4]⟩) ∧
     nextSection isStr ⟨some (PyVal.str "B"), [PyVal.int 3, PyVal.int 4]⟩ =
      .ok (some (PyVal.str "B", ⟨none, [PyVal.int 3, PyVal.int 4]⟩)) ∧
     drainSub isStr ⟨none, [PyVal.int 3, PyVal.int 4]⟩ =
      ([PyVal.int 3, PyVal.int 4], ⟨none, []⟩) ∧
     nextSection isStr (⟨none, []⟩ : SecState PyVal) = .ok none) ∧
    (nextSection isStr (sectionizeInit [PyVal.str "A", PyVal.str "B"]) =
      .ok (some (PyVal.str "A", ⟨none, [PyVal.str "B"]⟩)) ∧
     drainSub isStr ⟨none, [PyVal.str "B"]⟩ = ([], ⟨some (PyVal.str "B"), []⟩) ∧
     nextSection isStr ⟨some (PyVal.str "B"), ([] : List PyVal)⟩ =
      .ok (some (PyVal.str "B", ⟨none, []⟩)) ∧
     drainSub isStr (⟨none, []⟩ : SecState PyVal) = ([], ⟨none, []⟩)) := by
  exact ⟨⟨rfl, by decide, rfl, by decide, rfl⟩, ⟨rfl, by decide, rfl, by decide⟩⟩

/-! ## Claim theorems: grouper -/

/-- C9: `grouper` groups only adjacent runs sharing a leading key, never
re-sorting: `[(1,2,3), (1,5,7), (2,5,7)]` yields
`[(1, [(2,3), (5,7)]), (2, [(5,7)])]`; in `bare=True` mode
`[(1,2), (1,5), (2,5)]` yields `[(1, [2,5]), (2, [5])]`; and non-adjacent
equal keys as in `[(1,'a'), (2,'b'), (1,'c')]` produce three separate
groups, not two. -/
theorem grouper_adjacent_runs_examples :
    grouper [((1 : Int), [(2 : Int), 3]), (1, [5, 7]), (2, [5, 7])] =
      [(1, [[2, 3], [5, 7]]), (2, [[5, 7]])] ∧
    grouperBare [((1 : Int), (2 : Int)), (1, 5), (2, 5)] =
      [(1, [2, 5]), (2, [5])] ∧
    grouper [(PyVal.int 1, [PyVal.str "a"]), (PyVal.int 2, [PyVal.str "b"]),
             (PyVal.int 1, [PyVal.str "c"])] =
      [(PyVal.int 1, [[PyVal.str "a"]]), (PyVal.int 2, [[PyVal.str "b"]]),
       (PyVal.int 1, [[PyVal.str "c"]])] := by
  refine ⟨by decide, by decide, by decide⟩

end EvenMoreItertools
